import Mathlib

/-!
Shallow embedding of `scripts/tag_jlpt.py`: a batch job that builds a
vocabulary index from five JLPT word lists (`build_vocab_map`), streams the
dictionary database and decides a candidate level per entry (the matching
cascade in `main`), and queues idempotent tag updates.

Python strings are modelled as lists of characters (`PyStr`); Python `None`
for a text column is modelled as the empty string, which is behaviourally
identical here because every use of those columns is a truthiness test or
happens only under a non-empty guard.
-/

/-- Model of a Python string: its sequence of code points. -/
abbrev PyStr := List Char

/-- Convenience conversion from a Lean string literal. -/
def chars (s : String) : PyStr := s.data

/-- Python `str.strip()`: drop whitespace from both ends. -/
def pyStrip (s : PyStr) : PyStr :=
  ((s.dropWhile Char.isWhitespace).reverse.dropWhile Char.isWhitespace).reverse

/-- Python `str.lower()` (ASCII case folding suffices for the glosses used). -/
def pyLower (s : PyStr) : PyStr := s.map Char.toLower

/-- Python `needle in hay` on strings: contiguous-substring test. -/
def pyIn (needle hay : PyStr) : Bool := decide (needle <:+: hay)

/-- Recursive worker for splitting on `,`: returns the first piece and the
remaining pieces. -/
def splitCA : PyStr → PyStr × List PyStr
  | [] => ([], [])
  | c :: cs =>
    let r := splitCA cs
    if c = ',' then ([], r.1 :: r.2) else (c :: r.1, r.2)

/-- Python `s.split(",")`. -/
def splitC (s : PyStr) : List PyStr := (splitCA s).1 :: (splitCA s).2

/-- Python `",".join(l)`. -/
def joinC : List PyStr → PyStr
  | [] => []
  | [x] => x
  | x :: y :: r => x ++ ',' :: joinC (y :: r)

/-- Add an element to a list acting as a Python `set` (no duplicates). -/
def insertUniq {α : Type} [DecidableEq α] (x : α) (l : List α) : List α :=
  if x ∈ l then l else l ++ [x]

/-- Collect a list into a duplicate-free list (Python `set(...)`). -/
def dedup {α : Type} [DecidableEq α] (l : List α) : List α :=
  l.foldl (fun acc t => insertUniq t acc) []

/-- Python's lexicographic `<=` on strings, by code point. -/
def lexLe : PyStr → PyStr → Bool
  | [], _ => true
  | _ :: _, [] => false
  | a :: as, b :: bs => if a < b then true else if b < a then false else lexLe as bs

/-- The sorting relation used for Python `sorted` on tag strings. -/
def Rle (a b : PyStr) : Prop := lexLe a b = true

instance : DecidableRel Rle := fun a b => inferInstanceAs (Decidable (lexLe a b = true))

/-- `JLPT_LEVELS = ["N5", "N4", "N3", "N2", "N1"]` (processed in this order). -/
def JLPT_LEVELS : List PyStr := [chars "N5", chars "N4", chars "N3", chars "N2", chars "N1"]

/-- Helper for `int(level_str[1:])`: decimal value of a digit string. -/
def natOfDigits (l : PyStr) : Nat := l.foldl (fun n c => n * 10 + (c.toNat - '0'.toNat)) 0

/-- `level_key_func = lambda level_str: int(level_str[1:])`. -/
def level_key_func (s : PyStr) : Nat := natOfDigits (s.drop 1)

/-- Per-key accumulator of `intermediate_vocab`: sets of levels and meanings. -/
structure VocabData where
  levels : List PyStr
  english : List PyStr
deriving DecidableEq, Repr

/-- Value of the finished index: resolved level plus the union of meanings. -/
structure VocabEntry where
  level : PyStr
  english : List PyStr
deriving DecidableEq, Repr

/-- `intermediate_vocab[key]['levels'].add(lvl); ...['english'].add(english)`,
creating the entry on first access (`defaultdict`). -/
def addKey (lvl english k : PyStr) : List (PyStr × VocabData) → List (PyStr × VocabData)
  | [] => [(k, ⟨[lvl], [english]⟩)]
  | (k', d) :: rest =>
    if k' = k then (k', ⟨insertUniq lvl d.levels, insertUniq english d.english⟩) :: rest
    else (k', d) :: addKey lvl english k rest

/-- The 1-2 lookup keys built from a row: the kanji if non-empty, and the kana
if non-empty and (different from the kanji or the kanji is empty). -/
def row_keys (kanji kana : PyStr) : List PyStr :=
  (if kanji ≠ [] then [kanji] else []) ++
  (if kana ≠ [] ∧ (kana ≠ kanji ∨ kanji = []) then [kana] else [])

/-- Body of the per-row loop of `build_vocab_map`: skip short rows, strip the
three fields, skip rows missing both forms or the meaning, then record the
level and meaning under each key. -/
def processRow (lvl : PyStr) (vm : List (PyStr × VocabData)) (row : List PyStr) :
    List (PyStr × VocabData) :=
  if row.length < 3 then vm
  else
    let kanji := pyStrip (row.getD 0 [])
    let kana := pyStrip (row.getD 1 [])
    let english := pyStrip (row.getD 2 [])
    if (kanji = [] ∧ kana = []) ∨ english = [] then vm
    else (row_keys kanji kana).foldl (fun m k => addKey lvl english k m) vm

/-- One iteration of the `for lvl in JLPT_LEVELS` loop: a missing file
(`FileNotFoundError`) is a warning and contributes nothing. -/
def buildStep (files : PyStr → Option (List (List PyStr)))
    (vm : List (PyStr × VocabData)) (lvl : PyStr) : List (PyStr × VocabData) :=
  match files lvl with
  | none => vm
  | some rows => rows.foldl (processRow lvl) vm

/-- The fully ingested `intermediate_vocab`. -/
def buildIntermediate (files : PyStr → Option (List (List PyStr))) :
    List (PyStr × VocabData) :=
  JLPT_LEVELS.foldl (buildStep files) []

/-- `sorted(list(levels), key=level_key_func, reverse=True)[0]`: the first
element of the stable descending sort, i.e. the earliest element whose
numeric suffix is maximal. -/
def final_level (levels : List PyStr) : PyStr :=
  match levels with
  | [] => []
  | l :: ls => ls.foldl (fun best x => if level_key_func best < level_key_func x then x else best) l

/-- `build_vocab_map`: ingest all five lists and resolve each key's level. -/
def build_vocab_map (files : PyStr → Option (List (List PyStr))) :
    List (PyStr × VocabEntry) :=
  (buildIntermediate files).filterMap fun kd =>
    if kd.2.levels = [] then none
    else some (kd.1, ⟨final_level kd.2.levels, kd.2.english⟩)

/-- Python `dict` lookup on the index (keys are unique by construction). -/
def vmFind (m : List (PyStr × VocabEntry)) (k : PyStr) : Option VocabEntry :=
  match m with
  | [] => none
  | (k', v) :: rest => if k' = k then some v else vmFind rest k

/-- `check_meaning_overlap(db_meaning, csv_english_set)`. -/
def check_meaning_overlap (db_meaning : PyStr) (csv_english_set : List PyStr) : Bool :=
  if db_meaning = [] ∨ csv_english_set = [] then false
  else csv_english_set.any fun e => pyIn (pyLower e) (pyLower db_meaning)

/-- The branch of the matching cascade an entry falls into (the counters). -/
inductive MatchType where
  | kanjiMatch
  | kanaOnlyMatch
  | ambiguousMeaningOk
  | ambiguousMeaningFail
  | noMatch
deriving DecidableEq, Repr

/-- The matching cascade of `main` (priorities 1-3, else no match), reading
only the kanji, reading and meaning columns of the entry. -/
def decide_level (vm : List (PyStr × VocabEntry)) (db_kanji db_reading db_meaning : PyStr) :
    Option VocabEntry × MatchType :=
  if db_kanji ≠ [] then
    match vmFind vm db_kanji with
    | some ve => (some ve, .kanjiMatch)
    | none =>
      if db_reading ≠ [] then
        match vmFind vm db_reading with
        | some ve =>
          if check_meaning_overlap db_meaning ve.english then (some ve, .ambiguousMeaningOk)
          else (none, .ambiguousMeaningFail)
        | none => (none, .noMatch)
      else (none, .noMatch)
  else
    if db_reading ≠ [] then
      match vmFind vm db_reading with
      | some ve => (some ve, .kanaOnlyMatch)
      | none => (none, .noMatch)
    else (none, .noMatch)

/-- A row of `dict_index` as read by the job (`NULL` text modelled as `[]`). -/
structure DictRow where
  rowid : Nat
  kanji : PyStr
  reading : PyStr
  meaning : PyStr
  tags : PyStr
deriving DecidableEq, Repr

/-- `jlpt_tag = f"JLPT{lvl}"`. -/
def jlptTag (lvl : PyStr) : PyStr := chars "JLPT" ++ lvl

/-- `set(t.strip() for t in existing_tags.split(",") if t.strip())`. -/
def tag_items_of (tags : PyStr) : List PyStr :=
  dedup (((splitC tags).map pyStrip).filter fun t => decide (t ≠ []))

/-- Python `sorted` on the (duplicate-free) tag list. -/
def sortTags (l : List PyStr) : List PyStr := List.insertionSort Rle l

/-- Outcome of the tagging phase for one entry. -/
inductive Outcome where
  | noCandidate
  | alreadyTagged
  | queued (new_tags : PyStr) (rid : Nat)
deriving DecidableEq, Repr

/-- The tagging logic of `main` for one entry: no candidate leaves the entry
alone; a candidate whose tag is already present is counted as already tagged;
otherwise the merged, sorted, comma-joined tag string is queued. -/
def entryOutcome (vm : List (PyStr × VocabEntry)) (e : DictRow) : Outcome :=
  match (decide_level vm e.kanji e.reading e.meaning).1 with
  | none => .noCandidate
  | some ve =>
    let tag_items := tag_items_of e.tags
    let jlpt_tag := jlptTag ve.level
    if jlpt_tag ∈ tag_items then .alreadyTagged
    else .queued (joinC (sortTags (insertUniq jlpt_tag tag_items))) e.rowid

/-- The `(new_tags, rowid)` pair appended to `updates`, when any. -/
def entryUpdate (vm : List (PyStr × VocabEntry)) (e : DictRow) : Option (PyStr × Nat) :=
  match entryOutcome vm e with
  | .queued t rid => some (t, rid)
  | _ => none

/-- The full `updates` list produced by the processing loop. -/
def computeUpdates (vm : List (PyStr × VocabEntry)) (rows : List DictRow) :
    List (PyStr × Nat) :=
  rows.filterMap (entryUpdate vm)

/-- Effect of the queued statements on one row (`UPDATE dict_index SET
tags = ? WHERE rowid = ?`, applied in order). -/
def applyRow (r : DictRow) (updates : List (PyStr × Nat)) : DictRow :=
  updates.foldl (fun r u => if r.rowid = u.2 then { r with tags := u.1 } else r) r

/-- `executemany` over the whole table: each update rewrites the tags of every
row whose rowid matches. -/
def applyUpdates (rows : List DictRow) (updates : List (PyStr × Nat)) : List DictRow :=
  updates.foldl (fun rs u => rs.map fun r => if r.rowid = u.2 then { r with tags := u.1 } else r)
    rows

/-- The environment `main` runs against. -/
structure Env where
  csv_dir_exists : Bool
  db_file_exists : Bool
  files : PyStr → Option (List (List PyStr))
  dbError : Bool
  rows : List DictRow

/-- Control flow of `main`: the three pre-flight checks call `sys.exit(1)`;
a database error inside the `try` block is caught, the transaction rolled
back, and the function returns normally, so the process exits 0. Returns the
exit status and the final database contents. -/
def runJob (env : Env) : Nat × List DictRow :=
  if env.csv_dir_exists = false then (1, env.rows)
  else if env.db_file_exists = false then (1, env.rows)
  else if build_vocab_map env.files = [] then (1, env.rows)
  else if env.dbError then (0, env.rows)
  else (0, applyUpdates env.rows (computeUpdates (build_vocab_map env.files) env.rows))

/-- Modelled from the spec: the provenance records `{tier, primaryForm}` that
section 4.1 says are kept per key, in insertion order. The source script keeps
no such records; this definition follows the spec's words so that the claim
about the recorded source form can be stated. -/
def spec_provenance (files : PyStr → Option (List (List PyStr))) (k : PyStr) :
    List (PyStr × PyStr) :=
  JLPT_LEVELS.foldl (fun acc lvl =>
    match files lvl with
    | none => acc
    | some rows => rows.foldl (fun acc2 row =>
        if row.length < 3 then acc2
        else
          let kanji := pyStrip (row.getD 0 [])
          let kana := pyStrip (row.getD 1 [])
          let english := pyStrip (row.getD 2 [])
          if (kanji = [] ∧ kana = []) ∨ english = [] then acc2
          else if k ∈ row_keys kanji kana then acc2 ++ [(lvl, kanji)] else acc2) acc) []

/-- Modelled from the spec: the most-advanced tier among a list of tiers
(`N1` is most advanced, i.e. minimal numeric suffix; first such on a tie). -/
def spec_most_advanced (levels : List PyStr) : PyStr :=
  match levels with
  | [] => []
  | l :: ls => ls.foldl (fun best x => if level_key_func x < level_key_func best then x else best) l

/-- Modelled from the spec: the index's recorded `sourceForm` for a key — the
primary form of the first provenance record whose tier equals the selected
(most-advanced) tier, empty treated as absent. Absent from the source script. -/
def spec_source_form (files : PyStr → Option (List (List PyStr))) (k : PyStr) : Option PyStr :=
  let recs := spec_provenance files k
  match recs with
  | [] => none
  | _ :: _ =>
    let selected := spec_most_advanced (recs.map Prod.fst)
    match recs.find? fun rc => rc.1 = selected with
    | some rc => if rc.2 = [] then none else some rc.2
    | none => none

/-! ### Helper lemmas: set-like lists and sorting -/

theorem mem_insertUniq {α : Type} [DecidableEq α] (x y : α) (l : List α) :
    y ∈ insertUniq x l ↔ y ∈ l ∨ y = x := by
  by_cases h : x ∈ l
  · simp only [insertUniq, if_pos h]
    constructor
    · exact Or.inl
    · rintro (hy | rfl)
      · exact hy
      · exact h
  · simp [insertUniq, if_neg h]

theorem insertUniq_nodup {α : Type} [DecidableEq α] (x : α) (l : List α) (h : l.Nodup) :
    (insertUniq x l).Nodup := by
  by_cases hx : x ∈ l
  · simpa [insertUniq, hx] using h
  · simp [insertUniq, hx, List.nodup_append, h]

theorem mem_dedup_foldl {α : Type} [DecidableEq α] (l : List α) :
    ∀ (acc : List α) (y : α),
      (y ∈ l.foldl (fun acc t => insertUniq t acc) acc) ↔ y ∈ acc ∨ y ∈ l := by
  induction l with
  | nil => intro acc y; simp
  | cons a l ih =>
    intro acc y
    simp only [List.foldl_cons]
    rw [ih, mem_insertUniq]
    constructor
    · rintro ((h | rfl) | h)
      · exact Or.inl h
      · exact Or.inr (List.mem_cons_self _ _)
      · exact Or.inr (List.mem_cons_of_mem _ h)
    · rintro (h | h)
      · exact Or.inl (Or.inl h)
      · rcases List.mem_cons.mp h with rfl | h
        · exact Or.inl (Or.inr rfl)
        · exact Or.inr h

theorem mem_dedup {α : Type} [DecidableEq α] (l : List α) (y : α) :
    y ∈ dedup l ↔ y ∈ l := by
  unfold dedup
  rw [mem_dedup_foldl]
  simp

theorem nodup_dedup_foldl {α : Type} [DecidableEq α] (l : List α) :
    ∀ acc : List α, acc.Nodup → (l.foldl (fun acc t => insertUniq t acc) acc).Nodup := by
  induction l with
  | nil => intro acc h; exact h
  | cons a l ih =>
    intro acc h
    simp only [List.foldl_cons]
    exact ih _ (insertUniq_nodup a acc h)

theorem nodup_dedup {α : Type} [DecidableEq α] (l : List α) : (dedup l).Nodup :=
  nodup_dedup_foldl l [] List.nodup_nil

theorem lexLe_total : ∀ a b : PyStr, lexLe a b = true ∨ lexLe b a = true := by
  intro a
  induction a with
  | nil => intro b; exact Or.inl rfl
  | cons x xs ih =>
    intro b
    cases b with
    | nil => exact Or.inr rfl
    | cons y ys =>
      by_cases h1 : x < y
      · left; simp [lexLe, h1]
      · by_cases h2 : y < x
        · right; simp [lexLe, h2]
        · rcases ih ys with h | h
          · left; simp [lexLe, h1, h2, h]
          · right; simp [lexLe, h1, h2, h]

theorem lexLe_trans : ∀ a b c : PyStr, lexLe a b = true → lexLe b c = true → lexLe a c = true := by
  intro a
  induction a with
  | nil => intro b c _ _; rfl
  | cons x xs ih =>
    intro b c hab hbc
    cases b with
    | nil => simp [lexLe] at hab
    | cons y ys =>
      cases c with
      | nil => simp [lexLe] at hbc
      | cons z zs =>
        by_cases h1 : x < y
        · by_cases h2 : y < z
          · have hxz : x < z := lt_trans h1 h2
            simp [lexLe, hxz]
          · by_cases h3 : z < y
            · simp [lexLe, h2, h3] at hbc
            · have hyz : y = z := le_antisymm (not_lt.mp h3) (not_lt.mp h2)
              subst hyz
              simp [lexLe, h1]
        · by_cases h2 : y < x
          · simp [lexLe, h1, h2] at hab
          · have hxy : x = y := le_antisymm (not_lt.mp h2) (not_lt.mp h1)
            subst hxy
            simp only [lexLe, if_neg h1, if_neg h2] at hab
            by_cases h3 : x < z
            · simp [lexLe, h3]
            · by_cases h4 : z < x
              · simp [lexLe, h3, h4] at hbc
              · simp only [lexLe, if_neg h3, if_neg h4] at hbc ⊢
                exact ih ys zs hab hbc

instance : IsTotal PyStr Rle := ⟨fun a b => lexLe_total a b⟩

instance : IsTrans PyStr Rle := ⟨fun a b c => lexLe_trans a b c⟩

theorem mem_sortTags (l : List PyStr) (x : PyStr) : x ∈ sortTags l ↔ x ∈ l :=
  (List.perm_insertionSort Rle l).mem_iff

theorem sortTags_nodup (l : List PyStr) (h : l.Nodup) : (sortTags l).Nodup :=
  ((List.perm_insertionSort Rle l).nodup_iff).mpr h

theorem sortTags_sorted (l : List PyStr) : List.Sorted Rle (sortTags l) :=
  List.sorted_insertionSort Rle l

/-! ### Helper lemmas: splitting and joining tag strings -/

theorem splitC_pieces_no_comma : ∀ (s : PyStr), ∀ x ∈ splitC s, ',' ∉ x := by
  intro s
  induction s with
  | nil =>
    intro x hx
    simp [splitC, splitCA] at hx
    simp [hx]
  | cons c cs ih =>
    intro x hx
    by_cases hc : c = ','
    · subst hc
      simp only [splitC, splitCA, if_pos rfl] at hx
      rcases List.mem_cons.mp hx with rfl | hx
      · simp
      · exact ih x hx
    · simp only [splitC, splitCA, if_neg hc] at hx
      rcases List.mem_cons.mp hx with rfl | hx
      · intro hm
        rcases List.mem_cons.mp hm with h | h
        · exact hc h.symm
        · exact ih (splitCA cs).1 (List.mem_cons_self _ _) h
      · exact ih x (List.mem_cons_of_mem _ hx)

theorem splitCA_no_comma : ∀ s : PyStr, ',' ∉ s → splitCA s = (s, []) := by
  intro s
  induction s with
  | nil => intro _; rfl
  | cons c cs ih =>
    intro h
    have hc : ¬(c = ',') := fun hc => h (hc ▸ List.mem_cons_self c cs)
    have hcs : ',' ∉ cs := fun hm => h (List.mem_cons_of_mem _ hm)
    simp [splitCA, hc, ih hcs]

theorem splitCA_append_comma : ∀ (a s : PyStr), ',' ∉ a →
    splitCA (a ++ ',' :: s) = (a, splitC s) := by
  intro a
  induction a with
  | nil => intro s _; simp [splitCA, splitC]
  | cons c a' ih =>
    intro s h
    have hc : ¬(c = ',') := fun hc => h (hc ▸ List.mem_cons_self c a')
    have ha' : ',' ∉ a' := fun hm => h (List.mem_cons_of_mem _ hm)
    simp [splitCA, hc, ih s ha']

theorem splitC_joinC : ∀ (l : List PyStr), l ≠ [] → (∀ x ∈ l, ',' ∉ x) →
    splitC (joinC l) = l := by
  intro l
  induction l with
  | nil => intro h; exact absurd rfl h
  | cons x l ih =>
    intro _ hall
    cases l with
    | nil =>
      have hx : ',' ∉ x := hall x (List.mem_cons_self _ _)
      simp [joinC, splitC, splitCA_no_comma x hx]
    | cons y r =>
      have hx : ',' ∉ x := hall x (List.mem_cons_self _ _)
      have hrest : ∀ z ∈ y :: r, ',' ∉ z := fun z hz => hall z (List.mem_cons_of_mem _ hz)
      have hJ : joinC (x :: y :: r) = x ++ ',' :: joinC (y :: r) := rfl
      have h2 := splitCA_append_comma x (joinC (y :: r)) hx
      show splitC (joinC (x :: y :: r)) = x :: y :: r
      rw [hJ]
      unfold splitC
      rw [h2]
      show x :: splitC (joinC (y :: r)) = x :: y :: r
      rw [ih (by simp) hrest]

theorem dropWhile_subset {p : Char → Bool} : ∀ (l : PyStr), ∀ c ∈ l.dropWhile p, c ∈ l := by
  intro l
  induction l with
  | nil => simp
  | cons a l ih =>
    intro c hc
    by_cases h : p a
    · rw [List.dropWhile_cons_of_pos h] at hc
      exact List.mem_cons_of_mem _ (ih c hc)
    · rw [List.dropWhile_cons_of_neg h] at hc
      exact hc

theorem mem_pyStrip {c : Char} {s : PyStr} (h : c ∈ pyStrip s) : c ∈ s := by
  unfold pyStrip at h
  rw [List.mem_reverse] at h
  have h1 := dropWhile_subset _ c h
  rw [List.mem_reverse] at h1
  exact dropWhile_subset _ c h1

theorem tag_items_ne_nil {s x : PyStr} (h : x ∈ tag_items_of s) : x ≠ [] := by
  unfold tag_items_of at h
  rw [mem_dedup] at h
  have := List.of_mem_filter h
  simpa using this

theorem tag_items_no_comma {s x : PyStr} (h : x ∈ tag_items_of s) : ',' ∉ x := by
  unfold tag_items_of at h
  rw [mem_dedup] at h
  have hx := List.mem_of_mem_filter h
  rw [List.mem_map] at hx
  obtain ⟨y, hy, rfl⟩ := hx
  intro hc
  exact splitC_pieces_no_comma s y hy (mem_pyStrip hc)

theorem tag_items_nodup (s : PyStr) : (tag_items_of s).Nodup := nodup_dedup _

theorem jlptTag_good : ∀ lvl ∈ JLPT_LEVELS,
    jlptTag lvl ≠ [] ∧ ',' ∉ jlptTag lvl ∧ pyStrip (jlptTag lvl) = jlptTag lvl := by decide

theorem jlptTag_mem_roundtrip {lvl : PyStr} (hl : lvl ∈ JLPT_LEVELS) (s : PyStr) :
    jlptTag lvl ∈ tag_items_of (joinC (sortTags (insertUniq (jlptTag lvl) (tag_items_of s)))) := by
  obtain ⟨hne, hnc, hstrip⟩ := jlptTag_good lvl hl
  have htgL : jlptTag lvl ∈ sortTags (insertUniq (jlptTag lvl) (tag_items_of s)) := by
    rw [mem_sortTags, mem_insertUniq]
    exact Or.inr rfl
  have hLne : sortTags (insertUniq (jlptTag lvl) (tag_items_of s)) ≠ [] := by
    intro h
    rw [h] at htgL
    exact List.not_mem_nil _ htgL
  have hLnc : ∀ x ∈ sortTags (insertUniq (jlptTag lvl) (tag_items_of s)), ',' ∉ x := by
    intro x hx
    rw [mem_sortTags, mem_insertUniq] at hx
    rcases hx with hx | rfl
    · exact tag_items_no_comma hx
    · exact hnc
  have hsplit := splitC_joinC _ hLne hLnc
  have hmem : ∀ t x : PyStr,
      (x ∈ tag_items_of t ↔ x ∈ ((splitC t).map pyStrip).filter fun u => decide (u ≠ [])) :=
    fun t x => mem_dedup _ _
  rw [hmem, hsplit]
  apply List.mem_filter.mpr
  constructor
  · rw [List.mem_map]
    exact ⟨jlptTag lvl, htgL, hstrip⟩
  · simpa using hne

/-! ### Helper lemmas: the built index only carries the five JLPT levels -/

theorem vmFind_mem : ∀ (m : List (PyStr × VocabEntry)) (k : PyStr) (v : VocabEntry),
    vmFind m k = some v → (k, v) ∈ m := by
  intro m
  induction m with
  | nil => intro k v h; simp [vmFind] at h
  | cons p rest ih =>
    intro k v h
    obtain ⟨k', v'⟩ := p
    by_cases hk : k' = k
    · subst hk
      have hv : v' = v := by simpa [vmFind] using h
      subst hv
      exact List.mem_cons_self _ _
    · simp only [vmFind, if_neg hk] at h
      exact List.mem_cons_of_mem _ (ih k v h)

theorem addKey_levels_mem (lvl english k : PyStr) :
    ∀ (m : List (PyStr × VocabData)), ∀ p ∈ addKey lvl english k m, ∀ l ∈ p.2.levels,
      l = lvl ∨ ∃ q ∈ m, l ∈ q.2.levels := by
  intro m
  induction m with
  | nil =>
    intro p hp l hl
    simp only [addKey, List.mem_singleton] at hp
    subst hp
    simp only [List.mem_singleton] at hl
    exact Or.inl hl
  | cons q rest ih =>
    obtain ⟨k', d⟩ := q
    intro p hp l hl
    by_cases hk : k' = k
    · simp only [addKey, if_pos hk] at hp
      rcases List.mem_cons.mp hp with rfl | hp
      · simp only at hl
        rw [mem_insertUniq] at hl
        rcases hl with hl | rfl
        · exact Or.inr ⟨(k', d), List.mem_cons_self _ _, hl⟩
        · exact Or.inl rfl
      · exact Or.inr ⟨p, List.mem_cons_of_mem _ hp, hl⟩
    · simp only [addKey, if_neg hk] at hp
      rcases List.mem_cons.mp hp with rfl | hp
      · exact Or.inr ⟨(k', d), List.mem_cons_self _ _, hl⟩
      · rcases ih p hp l hl with h | ⟨q', hq', hlq⟩
        · exact Or.inl h
        · exact Or.inr ⟨q', List.mem_cons_of_mem _ hq', hlq⟩

theorem foldl_addKey_levels_mem (lvl english : PyStr) :
    ∀ (ks : List PyStr) (vm : List (PyStr × VocabData)),
      ∀ p ∈ ks.foldl (fun m k => addKey lvl english k m) vm, ∀ l ∈ p.2.levels,
        l = lvl ∨ ∃ q ∈ vm, l ∈ q.2.levels := by
  intro ks
  induction ks with
  | nil => intro vm p hp l hl; exact Or.inr ⟨p, hp, hl⟩
  | cons k ks ih =>
    intro vm p hp l hl
    simp only [List.foldl_cons] at hp
    rcases ih _ p hp l hl with h | ⟨q, hq, hlq⟩
    · exact Or.inl h
    · rcases addKey_levels_mem lvl english k vm q hq l hlq with h | h
      · exact Or.inl h
      · exact Or.inr h

theorem processRow_levels_mem (lvl : PyStr) (vm : List (PyStr × VocabData)) (row : List PyStr) :
    ∀ p ∈ processRow lvl vm row, ∀ l ∈ p.2.levels, l = lvl ∨ ∃ q ∈ vm, l ∈ q.2.levels := by
  intro p hp l hl
  simp only [processRow] at hp
  split at hp
  · exact Or.inr ⟨p, hp, hl⟩
  · split at hp
    · exact Or.inr ⟨p, hp, hl⟩
    · exact foldl_addKey_levels_mem lvl _ _ vm p hp l hl

theorem foldl_processRow_levels_mem (lvl : PyStr) :
    ∀ (rws : List (List PyStr)) (vm : List (PyStr × VocabData)),
      ∀ p ∈ rws.foldl (processRow lvl) vm, ∀ l ∈ p.2.levels,
        l = lvl ∨ ∃ q ∈ vm, l ∈ q.2.levels := by
  intro rws
  induction rws with
  | nil => intro vm p hp l hl; exact Or.inr ⟨p, hp, hl⟩
  | cons row rws ih =>
    intro vm p hp l hl
    simp only [List.foldl_cons] at hp
    rcases ih _ p hp l hl with h | ⟨q, hq, hlq⟩
    · exact Or.inl h
    · rcases processRow_levels_mem lvl vm row q hq l hlq with h | h
      · exact Or.inl h
      · exact Or.inr h

theorem buildIntermediate_good (files : PyStr → Option (List (List PyStr))) :
    ∀ p ∈ buildIntermediate files, ∀ l ∈ p.2.levels, l ∈ JLPT_LEVELS := by
  have main : ∀ (lvls : List PyStr), (∀ l ∈ lvls, l ∈ JLPT_LEVELS) →
      ∀ (vm : List (PyStr × VocabData)), (∀ p ∈ vm, ∀ l ∈ p.2.levels, l ∈ JLPT_LEVELS) →
      ∀ p ∈ lvls.foldl (buildStep files) vm, ∀ l ∈ p.2.levels, l ∈ JLPT_LEVELS := by
    intro lvls
    induction lvls with
    | nil => intro _ vm hvm p hp l hl; exact hvm p hp l hl
    | cons lv lvls ih =>
      intro hsub vm hvm p hp l hl
      simp only [List.foldl_cons] at hp
      refine ih (fun l' hl' => hsub l' (List.mem_cons_of_mem _ hl')) _ ?_ p hp l hl
      intro p' hp' l' hl'
      unfold buildStep at hp'
      cases hfl : files lv with
      | none =>
        rw [hfl] at hp'
        exact hvm p' hp' l' hl'
      | some rws =>
        rw [hfl] at hp'
        rcases foldl_processRow_levels_mem lv rws vm p' hp' l' hl' with h | ⟨q, hq, hlq⟩
        · exact h ▸ hsub lv (List.mem_cons_self _ _)
        · exact hvm q hq l' hlq
  intro p hp
  exact main JLPT_LEVELS (fun l hl => hl) [] (by simp) p hp

theorem foldl_pick_mem : ∀ (xs : List PyStr) (b : PyStr),
    xs.foldl (fun best x => if level_key_func best < level_key_func x then x else best) b
      ∈ b :: xs := by
  intro xs
  induction xs with
  | nil => intro b; exact List.mem_cons_self _ _
  | cons x xs ih =>
    intro b
    simp only [List.foldl_cons]
    by_cases hc : level_key_func b < level_key_func x
    · rw [if_pos hc]
      rcases List.mem_cons.mp (ih x) with h | h
      · rw [h]
        exact List.mem_cons_of_mem _ (List.mem_cons_self _ _)
      · exact List.mem_cons_of_mem _ (List.mem_cons_of_mem _ h)
    · rw [if_neg hc]
      rcases List.mem_cons.mp (ih b) with h | h
      · rw [h]
        exact List.mem_cons_self _ _
      · exact List.mem_cons_of_mem _ (List.mem_cons_of_mem _ h)

theorem final_level_mem : ∀ (xs : List PyStr), xs ≠ [] → final_level xs ∈ xs := by
  intro xs h
  cases xs with
  | nil => exact absurd rfl h
  | cons x xs => exact foldl_pick_mem xs x

theorem build_vocab_map_good (files : PyStr → Option (List (List PyStr))) :
    ∀ (k : PyStr) (ve : VocabEntry), vmFind (build_vocab_map files) k = some ve →
      ve.level ∈ JLPT_LEVELS := by
  intro k ve h
  have hmem := vmFind_mem _ _ _ h
  unfold build_vocab_map at hmem
  rw [List.mem_filterMap] at hmem
  obtain ⟨kd, hkd, heq⟩ := hmem
  by_cases hnil : kd.2.levels = []
  · rw [if_pos hnil] at heq
    exact absurd heq (by simp)
  · rw [if_neg hnil] at heq
    have hlv : final_level kd.2.levels = ve.level := by
      simpa using congrArg (fun o => o.map fun p => p.2.level) heq
    rw [← hlv]
    exact buildIntermediate_good files kd hkd _ (final_level_mem _ hnil)

/-! ### Helper lemmas: the matching cascade -/

theorem decide_level_eq_p1 (vm : List (PyStr × VocabEntry)) (a b c : PyStr) (ve : VocabEntry)
    (ha : a ≠ []) (hf : vmFind vm a = some ve) :
    decide_level vm a b c = (some ve, .kanjiMatch) := by
  unfold decide_level
  rw [if_pos ha, hf]

theorem decide_level_eq_p2 (vm : List (PyStr × VocabEntry)) (b c : PyStr) (ve : VocabEntry)
    (hb : b ≠ []) (hf : vmFind vm b = some ve) :
    decide_level vm [] b c = (some ve, .kanaOnlyMatch) := by
  unfold decide_level
  rw [if_neg (by simp), if_pos hb, hf]

theorem decide_level_eq_p3 (vm : List (PyStr × VocabEntry)) (a b c : PyStr) (ve : VocabEntry)
    (ha : a ≠ []) (hfa : vmFind vm a = none) (hb : b ≠ []) (hfb : vmFind vm b = some ve) :
    decide_level vm a b c =
      if check_meaning_overlap c ve.english then (some ve, .ambiguousMeaningOk)
      else (none, .ambiguousMeaningFail) := by
  unfold decide_level
  rw [if_pos ha, hfa, if_pos hb, hfb]

theorem decide_level_eq_noMatch (vm : List (PyStr × VocabEntry)) (a b c : PyStr)
    (h1 : a = [] ∨ vmFind vm a = none) (h2 : b = [] ∨ vmFind vm b = none) :
    decide_level vm a b c = (none, .noMatch) := by
  unfold decide_level
  by_cases ha : a ≠ []
  · rw [if_pos ha]
    have hfa : vmFind vm a = none := h1.resolve_left (by simpa using ha)
    rw [hfa]
    by_cases hb : b ≠ []
    · rw [if_pos hb]
      have hfb : vmFind vm b = none := h2.resolve_left (by simpa using hb)
      rw [hfb]
    · rw [if_neg hb]
  · rw [if_neg ha]
    by_cases hb : b ≠ []
    · rw [if_pos hb]
      have hfb : vmFind vm b = none := h2.resolve_left (by simpa using hb)
      rw [hfb]
    · rw [if_neg hb]

theorem decide_level_find (vm : List (PyStr × VocabEntry)) (a b c : PyStr) (ve : VocabEntry)
    (h : (decide_level vm a b c).1 = some ve) :
    vmFind vm a = some ve ∨ vmFind vm b = some ve := by
  by_cases ha : a ≠ []
  · cases hfa : vmFind vm a with
    | some v =>
      rw [decide_level_eq_p1 vm a b c v ha hfa] at h
      simp only [Option.some.injEq] at h
      subst h
      exact Or.inl rfl
    | none =>
      by_cases hb : b ≠ []
      · cases hfb : vmFind vm b with
        | some v =>
          rw [decide_level_eq_p3 vm a b c v ha hfa hb hfb] at h
          by_cases hov : check_meaning_overlap c v.english = true
          · rw [if_pos hov] at h
            simp only [Option.some.injEq] at h
            subst h
            exact Or.inr rfl
          · rw [if_neg hov] at h
            simp at h
        | none =>
          rw [decide_level_eq_noMatch vm a b c (Or.inr hfa) (Or.inr hfb)] at h
          simp at h
      · rw [decide_level_eq_noMatch vm a b c (Or.inr hfa) (Or.inl (by simpa using hb))] at h
        simp at h
  · have ha' : a = [] := by simpa using ha
    subst ha'
    by_cases hb : b ≠ []
    · cases hfb : vmFind vm b with
      | some v =>
        rw [decide_level_eq_p2 vm b c v hb hfb] at h
        simp only [Option.some.injEq] at h
        subst h
        exact Or.inr rfl
      | none =>
        rw [decide_level_eq_noMatch vm [] b c (Or.inl rfl) (Or.inr hfb)] at h
        simp at h
    · rw [decide_level_eq_noMatch vm [] b c (Or.inl rfl) (Or.inl (by simpa using hb))] at h
      simp at h

/-! ### Helper lemmas: the tagging phase and the batched update -/

theorem entryOutcome_queued (vm : List (PyStr × VocabEntry)) (e : DictRow) (t : PyStr) (rid : Nat)
    (h : entryOutcome vm e = .queued t rid) :
    rid = e.rowid ∧ ∃ ve, (decide_level vm e.kanji e.reading e.meaning).1 = some ve ∧
      jlptTag ve.level ∉ tag_items_of e.tags ∧
      t = joinC (sortTags (insertUniq (jlptTag ve.level) (tag_items_of e.tags))) := by
  unfold entryOutcome at h
  cases hd : (decide_level vm e.kanji e.reading e.meaning).1 with
  | none => rw [hd] at h; simp at h
  | some ve =>
    rw [hd] at h
    simp only at h
    by_cases hmem : jlptTag ve.level ∈ tag_items_of e.tags
    · rw [if_pos hmem] at h
      simp at h
    · rw [if_neg hmem] at h
      injection h with h1 h2
      exact ⟨h2.symm, ve, rfl, hmem, h1.symm⟩

theorem entryUpdate_eq_some (vm : List (PyStr × VocabEntry)) (e : DictRow) (u : PyStr × Nat)
    (h : entryUpdate vm e = some u) : entryOutcome vm e = .queued u.1 u.2 := by
  unfold entryUpdate at h
  cases ho : entryOutcome vm e with
  | noCandidate => rw [ho] at h; simp at h
  | alreadyTagged => rw [ho] at h; simp at h
  | queued t rid =>
    rw [ho] at h
    simp only [Option.some.injEq] at h
    subst h
    rfl

theorem entryUpdate_rowid (vm : List (PyStr × VocabEntry)) (e : DictRow) (u : PyStr × Nat)
    (h : entryUpdate vm e = some u) : u.2 = e.rowid :=
  (entryOutcome_queued vm e u.1 u.2 (entryUpdate_eq_some vm e u h)).1

theorem applyRow_fields : ∀ (us : List (PyStr × Nat)) (r : DictRow),
    (applyRow r us).kanji = r.kanji ∧ (applyRow r us).reading = r.reading ∧
    (applyRow r us).meaning = r.meaning ∧ (applyRow r us).rowid = r.rowid := by
  intro us
  induction us with
  | nil => intro r; exact ⟨rfl, rfl, rfl, rfl⟩
  | cons u us ih =>
    intro r
    have hstep : applyRow r (u :: us) =
        applyRow (if r.rowid = u.2 then { r with tags := u.1 } else r) us := rfl
    rw [hstep]
    by_cases h : r.rowid = u.2
    · rw [if_pos h]
      exact ih { r with tags := u.1 }
    · rw [if_neg h]
      exact ih r

theorem applyRow_keep : ∀ (us : List (PyStr × Nat)) (r : DictRow),
    (∀ u ∈ us, u.2 = r.rowid → u.1 = r.tags) → applyRow r us = r := by
  intro us
  induction us with
  | nil => intro r _; rfl
  | cons u us ih =>
    intro r hall
    have hstep : applyRow r (u :: us) =
        applyRow (if r.rowid = u.2 then { r with tags := u.1 } else r) us := rfl
    rw [hstep]
    by_cases h : r.rowid = u.2
    · rw [if_pos h]
      have ht : u.1 = r.tags := hall u (List.mem_cons_self _ _) h.symm
      rw [ht]
      have heta : ({ r with tags := r.tags } : DictRow) = r := rfl
      rw [heta]
      exact ih r fun u' hu' he => hall u' (List.mem_cons_of_mem _ hu') he
    · rw [if_neg h]
      exact ih r fun u' hu' he => hall u' (List.mem_cons_of_mem _ hu') he

theorem applyRow_hit : ∀ (us : List (PyStr × Nat)) (r : DictRow) (t : PyStr),
    (t, r.rowid) ∈ us → (∀ u ∈ us, u.2 = r.rowid → u.1 = t) →
    applyRow r us = { r with tags := t } := by
  intro us
  induction us with
  | nil => intro r t hmem _; exact absurd hmem (List.not_mem_nil _)
  | cons u us ih =>
    intro r t hmem hall
    have hstep : applyRow r (u :: us) =
        applyRow (if r.rowid = u.2 then { r with tags := u.1 } else r) us := rfl
    rw [hstep]
    by_cases h : r.rowid = u.2
    · rw [if_pos h]
      have ht : u.1 = t := hall u (List.mem_cons_self _ _) h.symm
      rw [ht]
      apply applyRow_keep
      intro u' hu' he
      exact hall u' (List.mem_cons_of_mem _ hu') he
    · rw [if_neg h]
      have hmem' : (t, r.rowid) ∈ us := by
        rcases List.mem_cons.mp hmem with heq | hmem'
        · exact absurd (show r.rowid = u.2 from congrArg Prod.snd heq) h
        · exact hmem'
      exact ih r t hmem' fun u' hu' he => hall u' (List.mem_cons_of_mem _ hu') he

theorem applyUpdates_eq_map : ∀ (us : List (PyStr × Nat)) (rows : List DictRow),
    applyUpdates rows us = rows.map fun r => applyRow r us := by
  intro us
  induction us with
  | nil =>
    intro rows
    show rows = rows.map fun r => r
    rw [List.map_id']
  | cons u us ih =>
    intro rows
    show applyUpdates (rows.map fun r => if r.rowid = u.2 then { r with tags := u.1 } else r) us = _
    rw [ih, List.map_map]
    rfl

theorem entryOutcome_already (vm : List (PyStr × VocabEntry)) (e : DictRow) (ve : VocabEntry)
    (hd : (decide_level vm e.kanji e.reading e.meaning).1 = some ve)
    (hmem : jlptTag ve.level ∈ tag_items_of e.tags) :
    entryOutcome vm e = .alreadyTagged := by
  unfold entryOutcome
  rw [hd]
  simp only [if_pos hmem]

theorem entryUpdate_none_of_outcome (vm : List (PyStr × VocabEntry)) (e : DictRow)
    (h : entryOutcome vm e = .alreadyTagged ∨ entryOutcome vm e = .noCandidate) :
    entryUpdate vm e = none := by
  unfold entryUpdate
  rcases h with h | h <;> rw [h]

theorem computeUpdates_unique (vm : List (PyStr × VocabEntry)) (rows : List DictRow)
    (hnd : (rows.map DictRow.rowid).Nodup) (r : DictRow) (hr : r ∈ rows) :
    ∀ u ∈ computeUpdates vm rows, u.2 = r.rowid → entryUpdate vm r = some u := by
  intro u hu he
  rw [computeUpdates, List.mem_filterMap] at hu
  obtain ⟨r', hr', hupd⟩ := hu
  have h2 : u.2 = r'.rowid := entryUpdate_rowid vm r' u hupd
  have hrr : r' = r := List.inj_on_of_nodup_map hnd hr' hr (h2.symm.trans he)
  rwa [hrr] at hupd

theorem second_run_entry (vm : List (PyStr × VocabEntry))
    (hg : ∀ k ve, vmFind vm k = some ve → ve.level ∈ JLPT_LEVELS)
    (rows : List DictRow) (hnd : (rows.map DictRow.rowid).Nodup)
    (r : DictRow) (hr : r ∈ rows) :
    entryUpdate vm (applyRow r (computeUpdates vm rows)) = none := by
  have huniq := computeUpdates_unique vm rows hnd r hr
  cases hcase : entryUpdate vm r with
  | none =>
    have hkeep : applyRow r (computeUpdates vm rows) = r := by
      apply applyRow_keep
      intro u hu he
      have hsome := huniq u hu he
      rw [hcase] at hsome
      exact absurd hsome (by simp)
    rw [hkeep, hcase]
  | some u =>
    obtain ⟨t, rid⟩ := u
    have hq := entryUpdate_eq_some vm r (t, rid) hcase
    obtain ⟨hrid, ve, hd, hnotmem, ht⟩ := entryOutcome_queued vm r t rid hq
    subst hrid
    have hmemus : (t, r.rowid) ∈ computeUpdates vm rows := by
      rw [computeUpdates, List.mem_filterMap]
      exact ⟨r, hr, hcase⟩
    have hhit : applyRow r (computeUpdates vm rows) = { r with tags := t } := by
      apply applyRow_hit _ _ _ hmemus
      intro u hu he
      have hsome := huniq u hu he
      rw [hcase] at hsome
      simp only [Option.some.injEq] at hsome
      rw [← hsome]
    rw [hhit]
    have hlev : ve.level ∈ JLPT_LEVELS := by
      rcases decide_level_find vm r.kanji r.reading r.meaning ve hd with h | h
      · exact hg _ _ h
      · exact hg _ _ h
    have hmemtag : jlptTag ve.level ∈ tag_items_of t := by
      rw [ht]
      exact jlptTag_mem_roundtrip hlev r.tags
    apply entryUpdate_none_of_outcome
    left
    exact entryOutcome_already vm { r with tags := t } ve hd hmemtag

theorem idem_general (vm : List (PyStr × VocabEntry))
    (hg : ∀ k ve, vmFind vm k = some ve → ve.level ∈ JLPT_LEVELS)
    (rows : List DictRow) (hnd : (rows.map DictRow.rowid).Nodup) :
    computeUpdates vm (applyUpdates rows (computeUpdates vm rows)) = [] := by
  rw [applyUpdates_eq_map]
  show List.filterMap (entryUpdate vm) _ = []
  rw [List.filterMap_map]
  apply List.filterMap_eq_nil_iff.mpr
  intro r hr
  exact second_run_entry vm hg rows hnd r hr

theorem entryOutcome_noCandidate (vm : List (PyStr × VocabEntry)) (e : DictRow)
    (h : (decide_level vm e.kanji e.reading e.meaning).1 = none) :
    entryOutcome vm e = .noCandidate := by
  unfold entryOutcome
  rw [h]

theorem entryOutcome_queued_eq (vm : List (PyStr × VocabEntry)) (e : DictRow) (ve : VocabEntry)
    (hd : (decide_level vm e.kanji e.reading e.meaning).1 = some ve)
    (hmem : jlptTag ve.level ∉ tag_items_of e.tags) :
    entryOutcome vm e =
      .queued (joinC (sortTags (insertUniq (jlptTag ve.level) (tag_items_of e.tags)))) e.rowid := by
  unfold entryOutcome
  rw [hd]
  simp only [if_neg hmem]

theorem entryUpdate_queued_eq (vm : List (PyStr × VocabEntry)) (e : DictRow) (t : PyStr) (rid : Nat)
    (h : entryOutcome vm e = .queued t rid) : entryUpdate vm e = some (t, rid) := by
  unfold entryUpdate
  rw [h]

/-! ### Concrete inputs used by counterexamples and witnesses -/

/-- Lists for the mismatch scenario: a single N5 row whose primary form is
`歩る`, so the key `はしる` has recorded source form `歩る`. -/
def filesC1 : PyStr → Option (List (List PyStr)) := fun lvl =>
  if lvl = chars "N5" then some [[chars "歩る", chars "はしる", chars "to walk"]] else none

/-- A dictionary entry whose primary form `走る` differs from the recorded
source form `歩る` but whose gloss overlaps the indexed meaning. -/
def rowC1 : DictRow := ⟨7, chars "走る", chars "はしる", chars "to walk; to run", []⟩

/-- A one-key index used to exercise the ambiguous branch directly. -/
def vmC1w : List (PyStr × VocabEntry) := [(chars "はしる", ⟨chars "N5", [chars "to walk"]⟩)]

/-- An entry hitting the ambiguous branch with a gloss that shares no meaning. -/
def rowC1w : DictRow := ⟨3, chars "走る", chars "はしる", chars "xyz", []⟩

/-! ### The claims -/

/-- C1 counterexample: for the index built from `filesC1`, the spec's recorded
source form for the reading-matched key `はしる` is the non-empty `歩る`, which
differs from the entry's primary form `走る`; the primary form is not an index
key, yet the annotator still produces a candidate (ambiguous branch with
passing meaning overlap) and queues a write for the entry, contradicting the
claim that no level is set and no write is queued. -/
theorem C1_mismatch_still_written :
    spec_source_form filesC1 (chars "はしる") = some (chars "歩る") ∧
    chars "歩る" ≠ ([] : PyStr) ∧ chars "歩る" ≠ chars "走る" ∧
    rowC1.kanji ≠ ([] : PyStr) ∧ vmFind (build_vocab_map filesC1) rowC1.kanji = none ∧
    (vmFind (build_vocab_map filesC1) rowC1.reading).isSome = true ∧
    (decide_level (build_vocab_map filesC1) rowC1.kanji rowC1.reading rowC1.meaning).2 =
      MatchType.ambiguousMeaningOk ∧
    entryUpdate (build_vocab_map filesC1) rowC1 = some (chars "JLPTN5", 7) := by
  decide

/-- C1 (amended): the annotator keeps no record of a source form, so an entry
whose primary form missed the index but whose reading is a key is decided by
the meaning-overlap check alone: when the check fails the entry gets no level,
is recorded as rejected and queues no write; when the check passes it gets the
indexed level even if the spec's recorded source form differs from the entry's
primary form. -/
theorem C1_overlap_alone_decides_mismatch (vm : List (PyStr × VocabEntry)) (e : DictRow)
    (ve : VocabEntry) (hk : e.kanji ≠ []) (hfk : vmFind vm e.kanji = none)
    (hr : e.reading ≠ []) (hfr : vmFind vm e.reading = some ve) :
    (check_meaning_overlap e.meaning ve.english = false →
      decide_level vm e.kanji e.reading e.meaning = (none, .ambiguousMeaningFail) ∧
      entryUpdate vm e = none) ∧
    (check_meaning_overlap e.meaning ve.english = true →
      (decide_level vm e.kanji e.reading e.meaning).1 = some ve) := by
  have hd := decide_level_eq_p3 vm e.kanji e.reading e.meaning ve hk hfk hr hfr
  constructor
  · intro hov
    rw [hov] at hd
    simp only [Bool.false_eq_true, if_false] at hd
    refine ⟨hd, ?_⟩
    apply entryUpdate_none_of_outcome
    right
    apply entryOutcome_noCandidate
    rw [hd]
  · intro hov
    rw [hov] at hd
    simp only [if_true] at hd
    rw [hd]

/-- C1 witness for the amended statement: a concrete ambiguous entry with a
non-overlapping gloss is rejected and queues nothing. -/
theorem C1_overlap_alone_witness :
    decide_level vmC1w rowC1w.kanji rowC1w.reading rowC1w.meaning =
      (none, MatchType.ambiguousMeaningFail) ∧
    entryUpdate vmC1w rowC1w = none :=
  (C1_overlap_alone_decides_mismatch vmC1w rowC1w ⟨chars "N5", [chars "to walk"]⟩
    (by decide) (by decide) (by decide) (by decide)).1 (by decide)

/-- Lists where `食べる` appears in the N5 list (meaning `to eat`) and the N3
list (meaning `to consume`): the tier-priority scenario of the claim. -/
def filesA : PyStr → Option (List (List PyStr)) := fun lvl =>
  if lvl = chars "N5" then some [[chars "食べる", chars "たべる", chars "to eat"]]
  else if lvl = chars "N3" then some [[chars "食べる", chars "たべる", chars "to consume"]]
  else none

/-- C2: on the failing input where `食べる` is listed at both N5 and N3, the
built index assigns level N5 (the sort key puts the largest numeric suffix
first), not the most-advanced tier N3 demanded by the claim and by the
function's own docstring; the meanings are correctly unioned. -/
theorem C2_least_advanced_tier_wins :
    vmFind (build_vocab_map filesA) (chars "食べる") =
      some ⟨chars "N5", [chars "to eat", chars "to consume"]⟩ ∧
    chars "N5" ≠ chars "N3" := by
  decide

/-- C3 counterexample: with an empty gloss and the meaning set containing the
empty string, some member (lower-cased) is a substring of the lower-cased
gloss, yet the check returns false — so the claimed equivalence fails. -/
theorem C3_empty_gloss_equivalence_fails :
    check_meaning_overlap [] [[]] = false ∧
    ∃ m ∈ ([[]] : List PyStr), pyLower m <:+: pyLower [] := by
  constructor
  · rfl
  · exact ⟨[], List.mem_singleton.mpr rfl, by decide⟩

/-- C3 (amended): the meaning-overlap check returns true iff the gloss is
non-empty and at least one meaning string, lower-cased, occurs as a contiguous
substring of the lower-cased gloss; in particular it returns false for an
empty gloss or an empty meaning set. -/
theorem C3_overlap_characterisation (g : PyStr) (ms : List PyStr) :
    check_meaning_overlap g ms = true ↔ (g ≠ [] ∧ ∃ m ∈ ms, pyLower m <:+: pyLower g) := by
  unfold check_meaning_overlap
  by_cases hg : g = []
  · subst hg
    simp
  · by_cases hm : ms = []
    · subst hm
      simp [hg]
    · rw [if_neg (by simp [hg, hm])]
      rw [List.any_eq_true]
      constructor
      · rintro ⟨m, hmem, hin⟩
        refine ⟨hg, m, hmem, ?_⟩
        simpa [pyIn] using hin
      · rintro ⟨-, m, hmem, hin⟩
        refine ⟨m, hmem, ?_⟩
        simpa [pyIn] using hin

/-- C4: the matching cascade applies exactly the first applicable rule: a
non-empty primary form that is an index key decides the entry regardless of
its reading and gloss (so the overlap check is never evaluated); the
reading-only rule fires only for entries with no primary form; the ambiguous
rule fires only when the primary form missed and the reading is a key; and
otherwise no rule applies. -/
theorem C4_first_applicable_rule (vm : List (PyStr × VocabEntry)) (kj rd mn : PyStr) :
    (∀ ve, kj ≠ [] → vmFind vm kj = some ve →
      ∀ rd' mn', decide_level vm kj rd' mn' = (some ve, .kanjiMatch)) ∧
    (∀ ve, kj = [] → rd ≠ [] → vmFind vm rd = some ve →
      decide_level vm kj rd mn = (some ve, .kanaOnlyMatch)) ∧
    (∀ ve, kj ≠ [] → vmFind vm kj = none → rd ≠ [] → vmFind vm rd = some ve →
      decide_level vm kj rd mn =
        if check_meaning_overlap mn ve.english then (some ve, .ambiguousMeaningOk)
        else (none, .ambiguousMeaningFail)) ∧
    ((kj = [] ∨ vmFind vm kj = none) → (rd = [] ∨ vmFind vm rd = none) →
      decide_level vm kj rd mn = (none, .noMatch)) := by
  refine ⟨?_, ?_, ?_, ?_⟩
  · intro ve hk hf rd' mn'
    exact decide_level_eq_p1 vm kj rd' mn' ve hk hf
  · intro ve hk hr hf
    subst hk
    exact decide_level_eq_p2 vm rd mn ve hr hf
  · intro ve hk hfk hr hfr
    exact decide_level_eq_p3 vm kj rd mn ve hk hfk hr hfr
  · intro h1 h2
    exact decide_level_eq_noMatch vm kj rd mn h1 h2

/-- Index for Scenario C: both the form `食べる` and its reading `たべる` are
keys. -/
def vmC4w : List (PyStr × VocabEntry) :=
  [(chars "食べる", ⟨chars "N5", [chars "to eat"]⟩),
   (chars "たべる", ⟨chars "N5", [chars "to eat"]⟩)]

/-- C4 witness (Scenario C): with primary form `食べる` in the index, the
entry is decided by rule 1 even though its reading `たべる` is also a key and
its gloss is unrelated. -/
theorem C4_first_applicable_rule_witness :
    decide_level vmC4w (chars "食べる") (chars "たべる") (chars "zzz") =
      (some ⟨chars "N5", [chars "to eat"]⟩, MatchType.kanjiMatch) :=
  (C4_first_applicable_rule vmC4w (chars "食べる") (chars "たべる") (chars "zzz")).1
    ⟨chars "N5", [chars "to eat"]⟩ (by decide) (by decide) (chars "たべる") (chars "zzz")

/-- C5: running the annotator a second time over the same vocabulary lists and
the database state left by a completed first run queues zero writes (the
database rowids are unique, as SQLite guarantees). -/
theorem C5_second_run_queues_nothing (files : PyStr → Option (List (List PyStr)))
    (rows : List DictRow) (hnd : (rows.map DictRow.rowid).Nodup) :
    computeUpdates (build_vocab_map files)
      (applyUpdates rows (computeUpdates (build_vocab_map files) rows)) = [] :=
  idem_general (build_vocab_map files) (build_vocab_map_good files) rows hnd

/-- A single-list vocabulary and a small database covering a queued write, an
already-tagged entry and a no-match entry. -/
def filesW : PyStr → Option (List (List PyStr)) := fun lvl =>
  if lvl = chars "N4" then some [[chars "犬", chars "いぬ", chars "dog"]] else none

/-- Three database rows: one to be tagged, one already tagged, one untouched. -/
def rowsW : List DictRow :=
  [⟨1, chars "犬", chars "いぬ", chars "dog; hound", []⟩,
   ⟨2, [], chars "いぬ", chars "dog", chars "JLPTN4"⟩,
   ⟨3, chars "猫", chars "ねこ", chars "cat", chars "old"⟩]

/-- C5 witness: on the concrete database the second run queues nothing. -/
theorem C5_second_run_witness :
    computeUpdates (build_vocab_map filesW)
      (applyUpdates rowsW (computeUpdates (build_vocab_map filesW) rowsW)) = [] :=
  C5_second_run_queues_nothing filesW rowsW (by decide)

/-- C6: once the cascade produced a candidate, the tagging phase queues a
write keyed by the entry's rowid exactly when the candidate's tag is not
already among the stored tags (the queued value merges it into the tag list);
when the tag is already present no write is queued and the entry is counted
as already tagged. -/
theorem C6_idempotent_write_decision (vm : List (PyStr × VocabEntry)) (e : DictRow)
    (ve : VocabEntry) (hd : (decide_level vm e.kanji e.reading e.meaning).1 = some ve) :
    (jlptTag ve.level ∈ tag_items_of e.tags →
      entryOutcome vm e = .alreadyTagged ∧ entryUpdate vm e = none) ∧
    (jlptTag ve.level ∉ tag_items_of e.tags →
      entryUpdate vm e =
        some (joinC (sortTags (insertUniq (jlptTag ve.level) (tag_items_of e.tags))), e.rowid) ∧
      jlptTag ve.level ∈ sortTags (insertUniq (jlptTag ve.level) (tag_items_of e.tags))) := by
  constructor
  · intro hmem
    have ho := entryOutcome_already vm e ve hd hmem
    exact ⟨ho, entryUpdate_none_of_outcome vm e (Or.inl ho)⟩
  · intro hmem
    refine ⟨entryUpdate_queued_eq vm e _ _ (entryOutcome_queued_eq vm e ve hd hmem), ?_⟩
    rw [mem_sortTags, mem_insertUniq]
    exact Or.inr rfl

/-- A one-key index for the write-decision witnesses. -/
def vmC6w : List (PyStr × VocabEntry) := [(chars "犬", ⟨chars "N4", [chars "dog"]⟩)]

/-- An entry matching `犬` that does not yet carry the JLPTN4 tag. -/
def rowC6w : DictRow := ⟨5, chars "犬", chars "いぬ", chars "dog", chars "xtag"⟩

/-- C6 witness: the concrete entry gets a write queued under its rowid, and
the queued tag list contains the candidate's tag. -/
theorem C6_idempotent_write_witness :
    entryUpdate vmC6w rowC6w =
      some (joinC (sortTags (insertUniq (jlptTag (chars "N4")) (tag_items_of rowC6w.tags))),
        rowC6w.rowid) ∧
    jlptTag (chars "N4") ∈ sortTags (insertUniq (jlptTag (chars "N4")) (tag_items_of rowC6w.tags)) :=
  (C6_idempotent_write_decision vmC6w rowC6w ⟨chars "N4", [chars "dog"]⟩ (by decide)).2 (by decide)

/-- C7: an entry for which no rule produced a candidate queues no write, no
queued update targets its rowid, and after the batch is applied the entry is
preserved exactly (the batch acts row-wise, and this row's image is itself). -/
theorem C7_no_candidate_untouched (vm : List (PyStr × VocabEntry)) (rows : List DictRow)
    (r : DictRow) (hnd : (rows.map DictRow.rowid).Nodup) (hr : r ∈ rows)
    (hnone : (decide_level vm r.kanji r.reading r.meaning).1 = none) :
    entryUpdate vm r = none ∧
    (∀ u ∈ computeUpdates vm rows, u.2 ≠ r.rowid) ∧
    applyUpdates rows (computeUpdates vm rows) =
      rows.map (fun x => applyRow x (computeUpdates vm rows)) ∧
    applyRow r (computeUpdates vm rows) = r := by
  have hupd : entryUpdate vm r = none :=
    entryUpdate_none_of_outcome vm r (Or.inr (entryOutcome_noCandidate vm r hnone))
  have hne : ∀ u ∈ computeUpdates vm rows, u.2 ≠ r.rowid := by
    intro u hu he
    have hsome := computeUpdates_unique vm rows hnd r hr u hu he
    rw [hupd] at hsome
    exact absurd hsome (by simp)
  refine ⟨hupd, hne, applyUpdates_eq_map _ _, ?_⟩
  exact applyRow_keep _ _ fun u hu he => absurd he (hne u hu)

/-- An entry with no match in `vmC6w`, carrying tags that must survive. -/
def rowC7w : DictRow := ⟨9, chars "馬", chars "うま", chars "horse", chars "zebra,JLPTN1"⟩

/-- C7 witness: the concrete no-match entry queues nothing and is preserved
exactly by the applied batch. -/
theorem C7_no_candidate_witness :
    entryUpdate vmC6w rowC7w = none ∧
    applyRow rowC7w (computeUpdates vmC6w [rowC7w, rowC6w]) = rowC7w :=
  ⟨(C7_no_candidate_untouched vmC6w [rowC7w, rowC6w] rowC7w (by decide) (by decide) (by decide)).1,
   (C7_no_candidate_untouched vmC6w [rowC7w, rowC6w] rowC7w (by decide) (by decide)
      (by decide)).2.2.2⟩

/-- An environment whose pre-flight checks pass but whose database raises an
unrecoverable error during the run. -/
def envC8 : Env := ⟨true, true, filesW, true, rowsW⟩

/-- C8 counterexample: with the input directory and database present and a
non-empty index, an unrecoverable database error is caught by the handler and
the process still exits 0, contradicting the claimed non-zero status. -/
theorem C8_db_error_exits_zero :
    envC8.csv_dir_exists = true ∧ envC8.db_file_exists = true ∧
    build_vocab_map envC8.files ≠ [] ∧ envC8.dbError = true ∧
    (runJob envC8).1 = 0 := by
  refine ⟨rfl, rfl, by decide, rfl, by decide⟩

/-- C8 (amended): the process exits non-zero exactly when the input directory
is missing, the database file is missing, or the resulting index is empty; a
database error during read or write is caught, the transaction rolled back,
and the process exits zero. -/
theorem C8_exit_status_characterisation (env : Env) :
    (runJob env).1 = 1 ↔
      (env.csv_dir_exists = false ∨ env.db_file_exists = false ∨
        build_vocab_map env.files = []) := by
  unfold runJob
  by_cases h1 : env.csv_dir_exists = false
  · simp [h1]
  · rw [if_neg h1]
    by_cases h2 : env.db_file_exists = false
    · simp [h1, h2]
    · rw [if_neg h2]
      by_cases h3 : build_vocab_map env.files = []
      · simp [h1, h2, h3]
      · rw [if_neg h3]
        by_cases h4 : env.dbError = true
        · simp [h1, h2, h3, h4]
        · simp only [h4, if_false]
          simp [h1, h2, h3]

/-- C9: a source row with fewer than three fields, or whose two form fields
are both blank after stripping, or whose meaning field is blank after
stripping, leaves the index accumulator unchanged (contributing no key), and
a level whose list file is missing contributes nothing while the fold over
the remaining levels continues. -/
theorem C9_malformed_rows_skipped (lvl : PyStr) (vm : List (PyStr × VocabData))
    (row : List PyStr) (files : PyStr → Option (List (List PyStr))) :
    (row.length < 3 → processRow lvl vm row = vm) ∧
    (pyStrip (row.getD 0 []) = [] ∧ pyStrip (row.getD 1 []) = [] →
      processRow lvl vm row = vm) ∧
    (pyStrip (row.getD 2 []) = [] → processRow lvl vm row = vm) ∧
    (files lvl = none → buildStep files vm lvl = vm) := by
  refine ⟨?_, ?_, ?_, ?_⟩
  · intro h
    unfold processRow
    rw [if_pos h]
  · intro h
    simp only [processRow]
    by_cases hl : row.length < 3
    · rw [if_pos hl]
    · rw [if_neg hl, if_pos (Or.inl h)]
  · intro h
    simp only [processRow]
    by_cases hl : row.length < 3
    · rw [if_pos hl]
    · rw [if_neg hl, if_pos (Or.inr h)]
  · intro h
    unfold buildStep
    rw [h]

/-- C9 witness: a short row, a row with blank forms, a row with a blank
meaning, and a missing file all leave the accumulator unchanged. -/
theorem C9_malformed_rows_witness :
    processRow (chars "N5") [] [chars "x"] = [] ∧
    processRow (chars "N5") [] [chars " ", [], chars "dog"] = [] ∧
    processRow (chars "N5") [] [chars "犬", chars "いぬ", chars "  "] = [] ∧
    buildStep (fun _ => none) [] (chars "N5") = [] :=
  ⟨(C9_malformed_rows_skipped (chars "N5") [] [chars "x"] (fun _ => none)).1 (by decide),
   (C9_malformed_rows_skipped (chars "N5") [] [chars " ", [], chars "dog"]
      (fun _ => none)).2.1 (by decide),
   (C9_malformed_rows_skipped (chars "N5") [] [chars "犬", chars "いぬ", chars "  "]
      (fun _ => none)).2.2.1 (by decide),
   (C9_malformed_rows_skipped (chars "N5") [] [] (fun _ => none)).2.2.2 rfl⟩

/-- C10: every queued update writes, under the entry's rowid, the comma-join
of the sorted duplicate-free list consisting of the entry's stored non-empty
trimmed tags plus the candidate's level tag; hence no stored tag is removed,
and an entry carrying a different level tag keeps it alongside the new one. -/
theorem C10_queued_tags_shape (vm : List (PyStr × VocabEntry)) (e : DictRow) (t : PyStr)
    (rid : Nat) (h : entryUpdate vm e = some (t, rid)) (ve : VocabEntry)
    (hd : (decide_level vm e.kanji e.reading e.meaning).1 = some ve) :
    rid = e.rowid ∧
    t = joinC (sortTags (insertUniq (jlptTag ve.level) (tag_items_of e.tags))) ∧
    List.Sorted Rle (sortTags (insertUniq (jlptTag ve.level) (tag_items_of e.tags))) ∧
    (sortTags (insertUniq (jlptTag ve.level) (tag_items_of e.tags))).Nodup ∧
    (∀ x, x ∈ sortTags (insertUniq (jlptTag ve.level) (tag_items_of e.tags)) ↔
      (x ∈ tag_items_of e.tags ∨ x = jlptTag ve.level)) := by
  have hq := entryUpdate_eq_some vm e (t, rid) h
  obtain ⟨hrid, ve', hd', hnotmem, ht⟩ := entryOutcome_queued vm e t rid hq
  have hve : ve' = ve := by
    rw [hd'] at hd
    exact (Option.some.injEq _ _ ▸ hd :)
  subst hve
  refine ⟨hrid, ht, sortTags_sorted _, ?_, ?_⟩
  · exact sortTags_nodup _ (insertUniq_nodup _ _ (tag_items_nodup _))
  · intro x
    rw [mem_sortTags, mem_insertUniq]

/-- An entry already carrying a different level tag, so the queued value keeps
both level tags. -/
def rowC10w : DictRow := ⟨6, chars "犬", chars "いぬ", chars "dog", chars "JLPTN3"⟩

/-- C10 witness: the concrete queued update targets the entry's rowid and its
value is the sorted merged tag list, which here carries both level tags. -/
theorem C10_queued_tags_witness :
    (6 : Nat) = rowC10w.rowid ∧
    chars "JLPTN3,JLPTN4" =
      joinC (sortTags (insertUniq (jlptTag (chars "N4")) (tag_items_of rowC10w.tags))) :=
  ⟨(C10_queued_tags_shape vmC6w rowC10w (chars "JLPTN3,JLPTN4") 6 (by decide)
      ⟨chars "N4", [chars "dog"]⟩ (by decide)).1,
   (C10_queued_tags_shape vmC6w rowC10w (chars "JLPTN3,JLPTN4") 6 (by decide)
      ⟨chars "N4", [chars "dog"]⟩ (by decide)).2.1⟩
